import Mathlib

/-!
# Verification of `bug_inspector.py`

A shallow embedding of the repository `red-hat-recon/bug-inspector`
(file `src/bug_inspector.py`) together with proofs of the behavioural
claims about its chunker, retry wrapper, per-file processor and source
walker.

Modelling conventions:
* Python strings are `List Char`.
* The HTTP transport (`requests.post` + `raise_for_status` + `.json()`)
  and the YAML parser (`yaml.safe_load`) are external effects; they are
  passed in as oracle fields of an `Env` record.  An exception is its
  message string (`str(e)`), so fallible operations return
  `Except (List Char) _`.
* Python `dict`s are association lists in insertion order;
  `dictInsert` has Python's assignment semantics (overwrite in place,
  append when the key is fresh) and `insertAll` is `dict.update`.
* Bounded recursions (`gpt_api_call`'s retry recursion, the slice loop
  of `split_source_code`, decimal formatting of indices in f-strings)
  are written with an explicit structural fuel argument that provably
  dominates the recursion depth, so that every definition computes by
  kernel reduction.  Filesystem writes always succeed in this model and
  carry no information, so they are omitted.
-/

set_option linter.unusedVariables false

namespace BugInspector

/-- `RETRY_LIMIT = 3` — number of retries for failed API calls. -/
def RETRY_LIMIT : Nat := 3

/-- `MAX_CHUNK_SIZE = 8000` — maximum chunk size for source code (in words). -/
def MAX_CHUNK_SIZE : Nat := 8000

/-! ## Chunker: `split_source_code` -/

/-- The whitespace characters recognised by Python's `str.split()`
(modelled on the ASCII whitespace set). -/
def isWs (c : Char) : Bool :=
  c = ' ' || c = '\t' || c = '\n' || c = '\r' || c = '\x0b' || c = '\x0c'

/-- One-pass accumulator implementation of Python's `str.split()`:
splits on runs of whitespace and drops leading/trailing whitespace.
The accumulator holds the characters of the current word, reversed. -/
def pySplitAux : List Char → List Char → List (List Char)
  | [], acc => if acc = [] then [] else [acc.reverse]
  | c :: cs, acc =>
    if isWs c then
      if acc = [] then pySplitAux cs [] else acc.reverse :: pySplitAux cs []
    else
      pySplitAux cs (c :: acc)

/-- Python `source_code.split()`. -/
def pySplit (s : List Char) : List (List Char) := pySplitAux s []

/-- Python `" ".join(words)`. -/
def joinSpace : List (List Char) → List Char
  | [] => []
  | [w] => w
  | w :: ws => w ++ ' ' :: joinSpace ws

/-- The slicing loop `[words[i:i+m] for i in range(0, len(words), m)]`.
`fuel` bounds the number of loop iterations; each iteration consumes at
least one word (for `m ≥ 1`), so `fuel = ws.length` suffices. -/
def chunkGo {α : Type} (m : Nat) : Nat → List α → List (List α)
  | _, [] => []
  | 0, _ :: _ => []
  | fuel + 1, w :: ws => ((w :: ws).take m) :: chunkGo m fuel (ws.drop (m - 1))

/-- Grouping of the word list into runs of at most `m` words,
as computed by the list comprehension in `split_source_code`.
(Python raises `ValueError` on step `0`; all claims assume `m ≥ 1`.) -/
def chunkList {α : Type} (m : Nat) (ws : List α) : List (List α) :=
  chunkGo m ws.length ws

/-- `split_source_code(source_code, max_words)`:
`words = source_code.split()`;
`chunks = [" ".join(words[i:i+max_words]) for i in range(0, len(words), max_words)]`. -/
def split_source_code (source_code : List Char) (max_words : Nat) : List (List Char) :=
  (chunkList max_words (pySplit source_code)).map joinSpace

/-! ## Decimal formatting of indices (f-string `{chunk_idx}` / `{i}`) -/

/-- The decimal digit character for `n < 10`. -/
def digitChar (n : Nat) : Char := Char.ofNat (48 + n)

/-- Decimal-digit recursion; `fuel > n` dominates the recursion depth
since the argument shrinks by a factor of ten each step. -/
def natDigitsGo : Nat → Nat → List Char → List Char
  | 0, _, acc => acc
  | fuel + 1, n, acc =>
    if n < 10 then digitChar n :: acc
    else natDigitsGo fuel (n / 10) (digitChar (n % 10) :: acc)

/-- The decimal digit string of `n`, as produced by Python string
interpolation of an `int`. -/
def natDigits (n : Nat) : List Char := natDigitsGo (n + 1) n []

/-- Is `c` a decimal digit character? -/
def isDigitCh (c : Char) : Bool := 48 ≤ c.toNat && c.toNat ≤ 57

/-! ## Data model: YAML values, prompts, environment -/

/-- A structured-data (YAML/JSON) value: the possible results of
`yaml.safe_load` and `response.json()`. -/
inductive Yaml : Type where
  | nullV : Yaml
  | str : List Char → Yaml
  | arr : List Yaml → Yaml
  | dict : List (List Char × Yaml) → Yaml

/-- A prompt pair from the prompt configuration document; `prompt.get("system", "")`
and `prompt.get("user", "")` default missing entries to the empty string, so both
fields are total. -/
structure Prompt where
  system : List Char
  user : List Char

/-- The external effects of the program.
`transport sys usr attempt` is the outcome of the `attempt`-th HTTP POST of the
(system, user) exchange — the parsed response body, or the message of the raised
exception (network error or non-success status).  `parse` is `yaml.safe_load`,
returning the parsed value or the `yaml.YAMLError` message. -/
structure Env where
  transport : List Char → List Char → Nat → Except (List Char) Yaml
  parse : List Char → Except (List Char) Yaml

/-! ## API client: `gpt_api_call` -/

/-- The retry recursion of `gpt_api_call`: attempt `t retries`; on failure,
if `retries < RETRY_LIMIT` recurse with `retries + 1`, else re-raise.
`fuel = RETRY_LIMIT + 1 - retries` dominates the recursion depth. -/
def gptGo (t : Nat → Except (List Char) Yaml) : Nat → Nat → Except (List Char) Yaml
  | 0, retries => t retries
  | fuel + 1, retries =>
    match t retries with
    | .ok r => .ok r
    | .error e =>
      if retries < RETRY_LIMIT then gptGo t fuel (retries + 1) else .error e

/-- `gpt_api_call(system_prompt, user_prompt, retries)`, with the transport
abstracted as `t`: returns the parsed response of the first successful
attempt, or re-raises the final failure after exhausting the retries. -/
def gpt_api_call (t : Nat → Except (List Char) Yaml) (retries : Nat) :
    Except (List Char) Yaml :=
  gptGo t (RETRY_LIMIT + 1 - retries) retries

/-- Attempt counter for the same recursion: how many transport attempts
`gpt_api_call t retries` performs. -/
def gptCountGo (t : Nat → Except (List Char) Yaml) : Nat → Nat → Nat
  | 0, _ => 1
  | fuel + 1, retries =>
    match t retries with
    | .ok _ => 1
    | .error _ =>
      if retries < RETRY_LIMIT then gptCountGo t fuel (retries + 1) + 1 else 1

/-- The number of transport attempts performed by `gpt_api_call t retries`. -/
def gpt_attempts (t : Nat → Except (List Char) Yaml) (retries : Nat) : Nat :=
  gptCountGo t (RETRY_LIMIT + 1 - retries) retries

/-! ## File processor: `process_file` -/

/-- First-match association-list lookup (Python `d[k]` on our dicts,
whose keys are unique by construction). -/
def lookupL {β : Type} : List (List Char × β) → List Char → Option β
  | [], _ => none
  | (k, v) :: rest, key => if k = key then some v else lookupL rest key

/-- Python subscript `y[k]` on a parsed structured value:
a `KeyError`/`TypeError` is an exception propagating to the enclosing handler. -/
def yGet (y : Yaml) (k : List Char) : Except (List Char) Yaml :=
  match y with
  | .dict es =>
    match lookupL es k with
    | some v => .ok v
    | none => .error (("KeyError: ").data ++ k)
  | _ => .error (("TypeError: value is not a dict").data)

/-- Python subscript `y[n]` for a numeric index. -/
def yIdx (y : Yaml) (n : Nat) : Except (List Char) Yaml :=
  match y with
  | .arr xs =>
    match xs.get? n with
    | some v => .ok v
    | none => .error (("IndexError: list index out of range").data)
  | _ => .error (("TypeError: value is not a list").data)

/-- `result["choices"][0]["message"]["content"]`, which must be a string
to be fed to `yaml.safe_load`. -/
def getContent (resp : Yaml) : Except (List Char) (List Char) :=
  match yGet resp ("choices").data with
  | .error e => .error e
  | .ok cs =>
    match yIdx cs 0 with
    | .error e => .error e
    | .ok c0 =>
      match yGet c0 ("message").data with
      | .error e => .error e
      | .ok msg =>
        match yGet msg ("content").data with
        | .error e => .error e
        | .ok v =>
          match v with
          | .str t => .ok t
          | _ => .error (("TypeError: content is not a string").data)

/-- The user message built in `process_file`:
`f"{prompt.get('user', '')}\n\nSource Code Chunk:\n\"\"\"{chunk}\"\"\""`. -/
def user_prompt (pr : Prompt) (chunk : List Char) : List Char :=
  pr.user ++ ("\n\nSource Code Chunk:\n\"\"\"").data ++ chunk ++ ("\"\"\"").data

/-- The f-string key `f"{Path(file_path).stem}_chunk_{chunk_idx}_prompt_{i}"`. -/
def result_key (stem : List Char) (c p : Nat) : List Char :=
  stem ++ ("_chunk_").data ++ natDigits c ++ ("_prompt_").data ++ natDigits p

/-- The body of the inner `try` up to YAML parsing: call the API
(`gpt_api_call`, starting at `retries = 0`) and extract
`choices[0].message.content`.  An error is the message of the exception
caught by `except Exception as e`. -/
def content_of (env : Env) (pr : Prompt) (chunk : List Char) :
    Except (List Char) (List Char) :=
  match gpt_api_call (env.transport pr.system (user_prompt pr chunk)) 0 with
  | .error e => .error e
  | .ok resp => getContent resp

/-- The record stored for one (chunk, prompt) pair:
the parsed response on success; `{"error": "YAML parsing failed",
"raw_output": result_yaml}` when only the YAML parse fails; and
`{"error": str(e)}` when the API call (after retries) or the response-shape
extraction raises. -/
def process_pair (env : Env) (pr : Prompt) (chunk : List Char) : Yaml :=
  match content_of env pr chunk with
  | .error e => .dict [(("error").data, .str e)]
  | .ok raw =>
    match env.parse raw with
    | .error _ =>
      .dict [(("error").data, .str ("YAML parsing failed").data),
             (("raw_output").data, .str raw)]
    | .ok v => v

/-- A Python result dict, as an association list in insertion order. -/
abbrev Dict := List (List Char × Yaml)

/-- Python `results[key] = v`: overwrite in place when the key is present,
append otherwise. -/
def dictInsert (m : Dict) (k : List Char) (v : Yaml) : Dict :=
  if m.any (fun e => e.1 = k) then
    m.map (fun e => if e.1 = k then (k, v) else e)
  else
    m ++ [(k, v)]

/-- Python `results.update(es)`: insert every entry of `es` in order. -/
def insertAll (m : Dict) (es : Dict) : Dict :=
  es.foldl (fun acc e => dictInsert acc e.1 e.2) m

/-- The inner prompt loop of `process_file`, for one chunk numbered `c`:
`for i, prompt in enumerate(prompts, start=1)` with `i` starting at `p`. -/
def process_prompts (env : Env) (stem chunk : List Char) (c : Nat) :
    List Prompt → Nat → Dict → Dict
  | [], _, results => results
  | pr :: rest, p, results =>
    process_prompts env stem chunk c rest (p + 1)
      (dictInsert results (result_key stem c p) (process_pair env pr chunk))

/-- The outer chunk loop of `process_file`:
`for chunk_idx, chunk in enumerate(code_chunks, start=1)` with
`chunk_idx` starting at `c`. -/
def process_chunks (env : Env) (stem : List Char) (prompts : List Prompt) :
    List (List Char) → Nat → Dict → Dict
  | [], _, results => results
  | ch :: rest, c, results =>
    process_chunks env stem prompts rest (c + 1)
      (process_prompts env stem ch c prompts 1 results)

/-- `process_file(file_path, prompts, input_dir, output_dir)`.
`readResult` is the outcome of `open(file_path).read()`; when it raises,
the outer `except` catches and the accumulated (empty) `results` is
returned.  `stem` is `Path(file_path).stem`. -/
def process_file (env : Env) (readResult : Except (List Char) (List Char))
    (stem : List Char) (prompts : List Prompt) : Dict :=
  match readResult with
  | .error _ => []
  | .ok source_code =>
    process_chunks env stem prompts
      (split_source_code source_code MAX_CHUNK_SIZE) 1 []

/-- The canonical entry list of the inner prompt loop (one entry per prompt,
prompt numbers counting up from `p`). -/
def promptEntries (env : Env) (stem chunk : List Char) (c : Nat) :
    List Prompt → Nat → Dict
  | [], _ => []
  | pr :: rest, p =>
    (result_key stem c p, process_pair env pr chunk) ::
      promptEntries env stem chunk c rest (p + 1)

/-- The canonical entry list of the chunk loop (chunk numbers counting up
from `c`, prompt numbers restarting at `1` for every chunk). -/
def chunkEntries (env : Env) (stem : List Char) (prompts : List Prompt) :
    List (List Char) → Nat → Dict
  | [], _ => []
  | ch :: rest, c =>
    promptEntries env stem ch c prompts 1 ++ chunkEntries env stem prompts rest (c + 1)

/-! ## Source walker: `inspect_source_code` -/

/-- A concrete input file: its `Path(...).stem` and the outcome of reading it. -/
structure FileDesc where
  stem : List Char
  readResult : Except (List Char) (List Char)

/-- One entry of the `input_source` list.  A directory is modelled by the
list of regular files its recursive traversal (`rglob("*")` filtered by
`is_file()`) yields, in traversal order. -/
inductive Source : Type where
  | file : FileDesc → Source
  | dir : List FileDesc → Source
  | invalid : Source

/-- The loop of `inspect_source_code` over the input sources, accumulating
`results` by `results.update(process_file(...))`; invalid sources are
logged and skipped. -/
def inspect_go (env : Env) (prompts : List Prompt) : List Source → Dict → Dict
  | [], results => results
  | s :: rest, results =>
    match s with
    | .file f =>
      inspect_go env prompts rest
        (insertAll results (process_file env f.readResult f.stem prompts))
    | .dir fs =>
      inspect_go env prompts rest
        (fs.foldl (fun r f => insertAll r (process_file env f.readResult f.stem prompts)) results)
    | .invalid => inspect_go env prompts rest results

/-- `inspect_source_code(input_sources, prompts, input_dir, output_dir)`:
the combined result mapping written to `combined_results.yaml`. -/
def inspect_source_code (env : Env) (sources : List Source) (prompts : List Prompt) : Dict :=
  inspect_go env prompts sources []

/-- Value of a decimal digit string (left inverse of `natDigits`). -/
def digitsVal (ds : List Char) : Nat :=
  ds.foldl (fun a c => a * 10 + (c.toNat - 48)) 0

/-- Concrete environment: every API call succeeds with a well-shaped response
whose message content then fails YAML parsing (fixture for witnesses). -/
def envParseFail : Env where
  transport := fun _ _ _ => .ok (Yaml.dict [(("choices").data,
    .arr [Yaml.dict [(("message").data, Yaml.dict [(("content").data,
      .str ("not: [valid").data)])]])])
  parse := fun _ => .error ("bad yaml").data

/-- Concrete environment: every API attempt raises (fixture for witnesses). -/
def envApiFail : Env where
  transport := fun _ _ _ => .error ("boom").data
  parse := fun _ => .ok Yaml.nullV

/-! ## Lemmas about the chunker -/

lemma chunkGo_fuel {α : Type} (m : Nat) :
    ∀ (fuel fuel2 : Nat) (ws : List α), ws.length ≤ fuel → ws.length ≤ fuel2 →
      chunkGo m fuel ws = chunkGo m fuel2 ws := by
  intro fuel
  induction fuel with
  | zero =>
    intro fuel2 ws h1 _
    have : ws = [] := List.length_eq_zero.mp (Nat.le_antisymm h1 (Nat.zero_le _))
    subst this
    cases fuel2 <;> rfl
  | succ f ih =>
    intro fuel2 ws h1 h2
    cases ws with
    | nil => cases fuel2 <;> rfl
    | cons w tl =>
      cases fuel2 with
      | zero => simp at h2
      | succ g =>
        show ((w :: tl).take m) :: chunkGo m f (tl.drop (m - 1)) =
             ((w :: tl).take m) :: chunkGo m g (tl.drop (m - 1))
        have hlen : (tl.drop (m - 1)).length ≤ tl.length := by
          rw [List.length_drop]; omega
        have h1' : tl.length ≤ f := by simpa using h1
        have h2' : tl.length ≤ g := by simpa using h2
        rw [ih g (tl.drop (m - 1)) (le_trans hlen h1') (le_trans hlen h2')]

lemma chunkList_cons {α : Type} (m : Nat) (w : α) (ws : List α) :
    chunkList m (w :: ws) = ((w :: ws).take m) :: chunkList m (ws.drop (m - 1)) := by
  show chunkGo m (ws.length + 1) (w :: ws) = _
  show ((w :: ws).take m) :: chunkGo m ws.length (ws.drop (m - 1)) = _
  unfold chunkList
  congr 1
  exact chunkGo_fuel m ws.length (ws.drop (m - 1)).length (ws.drop (m - 1))
    (by rw [List.length_drop]; omega) (le_refl _)

lemma chunkList_flatten {α : Type} (m : Nat) (hm : 1 ≤ m) :
    ∀ (fuel : Nat) (ws : List α), ws.length ≤ fuel →
      (chunkGo m fuel ws).flatten = ws := by
  intro fuel
  induction fuel with
  | zero =>
    intro ws h
    have : ws = [] := List.length_eq_zero.mp (Nat.le_antisymm h (Nat.zero_le _))
    subst this; rfl
  | succ f ih =>
    intro ws h
    cases ws with
    | nil => rfl
    | cons w tl =>
      obtain ⟨m', rfl⟩ : ∃ m', m = m' + 1 := ⟨m - 1, by omega⟩
      show (((w :: tl).take (m' + 1)) :: chunkGo (m' + 1) f (tl.drop (m' + 1 - 1))).flatten = w :: tl
      rw [List.flatten_cons]
      have hlen : (tl.drop (m' + 1 - 1)).length ≤ f := by
        rw [List.length_drop]
        have : tl.length ≤ f := by simpa using h
        omega
      rw [ih (tl.drop (m' + 1 - 1)) hlen]
      simp [List.take_succ_cons, List.take_append_drop]

lemma chunkList_mem {α : Type} (m : Nat) (hm : 1 ≤ m) :
    ∀ (fuel : Nat) (ws : List α) (g : List α), ws.length ≤ fuel →
      g ∈ chunkGo m fuel ws → g ≠ [] ∧ g.length ≤ m := by
  intro fuel
  induction fuel with
  | zero =>
    intro ws g h hg
    have : ws = [] := List.length_eq_zero.mp (Nat.le_antisymm h (Nat.zero_le _))
    subst this; simp [chunkGo] at hg
  | succ f ih =>
    intro ws g h hg
    cases ws with
    | nil => simp [chunkGo] at hg
    | cons w tl =>
      have hg' : g = (w :: tl).take m ∨ g ∈ chunkGo m f (tl.drop (m - 1)) := by
        simpa [chunkGo] using hg
      rcases hg' with rfl | hg'
      · constructor
        · obtain ⟨m', rfl⟩ : ∃ m', m = m' + 1 := ⟨m - 1, by omega⟩
          simp [List.take_succ_cons]
        · rw [List.length_take]; omega
      · refine ih (tl.drop (m - 1)) g ?_ hg'
        rw [List.length_drop]
        have htl : tl.length ≤ f := by simpa using h
        omega

lemma split_chunks (src : List Char) (m : Nat) :
    split_source_code src m = (chunkList m (pySplit src)).map joinSpace := rfl

/-! ## Lemmas about `pySplit` and `joinSpace` -/

lemma joinSpace_cons_cons (w x : List Char) (ws : List (List Char)) :
    joinSpace (w :: x :: ws) = w ++ ' ' :: joinSpace (x :: ws) := rfl

lemma joinSpace_append (a b : List (List Char)) (ha : a ≠ []) (hb : b ≠ []) :
    joinSpace (a ++ b) = joinSpace a ++ ' ' :: joinSpace b := by
  induction a with
  | nil => exact absurd rfl ha
  | cons w a ih =>
    cases a with
    | nil =>
      cases b with
      | nil => exact absurd rfl hb
      | cons x bs => rfl
    | cons y a2 =>
      have : (w :: y :: a2) ++ b = w :: ((y :: a2) ++ b) := rfl
      rw [this]
      have h2 : (y :: a2) ++ b = y :: (a2 ++ b) := rfl
      rw [h2, joinSpace_cons_cons, ← h2, ih (by simp)]
      simp [joinSpace_cons_cons, List.append_assoc]

lemma pySplitAux_word (w : List Char) :
    (∀ c ∈ w, isWs c = false) → ∀ (s acc : List Char),
      pySplitAux (w ++ s) acc = pySplitAux s (w.reverse ++ acc) := by
  induction w with
  | nil => intro _ s acc; simp
  | cons c w ih =>
    intro hw s acc
    have hc : isWs c = false := hw c (by simp)
    have hw' : ∀ x ∈ w, isWs x = false := fun x hx => hw x (by simp [hx])
    show pySplitAux (c :: (w ++ s)) acc = _
    rw [show pySplitAux (c :: (w ++ s)) acc = pySplitAux (w ++ s) (c :: acc) by
      simp [pySplitAux, hc]]
    rw [ih hw' s (c :: acc)]
    simp

lemma pySplitAux_good : ∀ (s acc : List Char), (∀ c ∈ acc, isWs c = false) →
    ∀ w ∈ pySplitAux s acc, w ≠ [] ∧ ∀ c ∈ w, isWs c = false := by
  intro s
  induction s with
  | nil =>
    intro acc hacc w hw
    by_cases h : acc = []
    · simp [pySplitAux, h] at hw
    · rw [show pySplitAux [] acc = [acc.reverse] by simp [pySplitAux, h]] at hw
      rw [List.mem_singleton] at hw
      subst hw
      refine ⟨by simp [h], fun c hc => hacc c (List.mem_reverse.mp hc)⟩
  | cons c cs ih =>
    intro acc hacc w hw
    by_cases hc : isWs c = true
    · by_cases h : acc = []
      · rw [show pySplitAux (c :: cs) acc = pySplitAux cs [] by simp [pySplitAux, hc, h]] at hw
        exact ih [] (by simp) w hw
      · rw [show pySplitAux (c :: cs) acc = acc.reverse :: pySplitAux cs [] by
          simp [pySplitAux, hc, h]] at hw
        rcases List.mem_cons.mp hw with rfl | hw'
        · exact ⟨by simp [h], fun x hx => hacc x (List.mem_reverse.mp hx)⟩
        · exact ih [] (by simp) w hw'
    · rw [show pySplitAux (c :: cs) acc = pySplitAux cs (c :: acc) by
        simp [pySplitAux, hc]] at hw
      refine ih (c :: acc) ?_ w hw
      intro x hx
      rcases List.mem_cons.mp hx with rfl | hx'
      · simpa using hc
      · exact hacc x hx'

lemma pySplit_good (s : List Char) :
    ∀ w ∈ pySplit s, w ≠ [] ∧ ∀ c ∈ w, isWs c = false :=
  pySplitAux_good s [] (by simp)

lemma pySplit_joinSpace : ∀ (ws : List (List Char)),
    (∀ w ∈ ws, w ≠ [] ∧ ∀ c ∈ w, isWs c = false) →
    pySplit (joinSpace ws) = ws := by
  intro ws
  induction ws with
  | nil => intro _; rfl
  | cons w tail ih =>
    intro h
    obtain ⟨hw, hwf⟩ := h w (by simp)
    cases tail with
    | nil =>
      show pySplitAux (joinSpace [w]) [] = [w]
      rw [show joinSpace [w] = w ++ ([] : List Char) by simp [joinSpace]]
      rw [pySplitAux_word w hwf [] []]
      have : w.reverse ≠ [] := by simp [hw]
      simp [pySplitAux, this]
    | cons w2 rest =>
      show pySplitAux (joinSpace (w :: w2 :: rest)) [] = w :: w2 :: rest
      rw [joinSpace_cons_cons, pySplitAux_word w hwf _ []]
      have hacc : w.reverse ++ ([] : List Char) ≠ [] := by simp [hw]
      rw [show pySplitAux (' ' :: joinSpace (w2 :: rest)) (w.reverse ++ [])
            = (w.reverse ++ []).reverse :: pySplitAux (joinSpace (w2 :: rest)) [] by
        simp [pySplitAux, isWs, hw]]
      rw [List.append_nil, List.reverse_reverse]
      have htail : ∀ v ∈ w2 :: rest, v ≠ [] ∧ ∀ c ∈ v, isWs c = false :=
        fun v hv => h v (by simp [hv])
      rw [show pySplitAux (joinSpace (w2 :: rest)) [] = pySplit (joinSpace (w2 :: rest)) from rfl]
      rw [ih htail]

lemma joinSpace_map_flatten : ∀ (gs : List (List (List Char))), (∀ g ∈ gs, g ≠ []) →
    joinSpace (gs.map joinSpace) = joinSpace gs.flatten := by
  intro gs
  induction gs with
  | nil => intro _; rfl
  | cons g gs ih =>
    intro h
    cases gs with
    | nil => simp [joinSpace]
    | cons g2 rest =>
      have hg : g ≠ [] := h g (by simp)
      have hg2 : g2 ≠ [] := h g2 (by simp)
      have hfl : (g2 :: rest).flatten ≠ [] := by
        rw [List.flatten_cons]
        intro hcon
        exact hg2 (List.append_eq_nil.mp hcon).1
      show joinSpace (joinSpace g :: joinSpace g2 :: rest.map joinSpace)
        = joinSpace ((g :: g2 :: rest).flatten)
      rw [joinSpace_cons_cons]
      rw [show joinSpace g2 :: rest.map joinSpace = (g2 :: rest).map joinSpace from rfl]
      rw [ih (fun x hx => h x (by simp [hx]))]
      rw [show (g :: g2 :: rest).flatten = g ++ (g2 :: rest).flatten from rfl]
      rw [joinSpace_append g (g2 :: rest).flatten hg hfl]

/-- The words of every chunk are original words of the input. -/
lemma chunk_words_good (src : List Char) (m : Nat) (hm : 1 ≤ m)
    (g : List (List Char)) (hg : g ∈ chunkList m (pySplit src)) :
    ∀ w ∈ g, w ≠ [] ∧ ∀ c ∈ w, isWs c = false := by
  intro w hw
  refine pySplit_good src w ?_
  have hfl : (chunkList m (pySplit src)).flatten = pySplit src :=
    chunkList_flatten m hm (pySplit src).length (pySplit src) (le_refl _)
  rw [← hfl]
  exact List.mem_flatten.mpr ⟨g, hg, hw⟩

/-- C1 — re-joining all chunks with single spaces yields exactly the original
whitespace-separated words in order; and concatenating the per-chunk word
lists gives the original word list (no word lost, duplicated or shared
between chunks). -/
theorem chunker_rejoin_words (src : List Char) (m : Nat) (hm : 1 ≤ m) :
    pySplit (joinSpace (split_source_code src m)) = pySplit src ∧
    ((split_source_code src m).map pySplit).flatten = pySplit src := by
  have hmap : (split_source_code src m).map pySplit = chunkList m (pySplit src) := by
    rw [split_chunks, List.map_map]
    have : ∀ g ∈ chunkList m (pySplit src), (pySplit ∘ joinSpace) g = id g := by
      intro g hg
      show pySplit (joinSpace g) = g
      exact pySplit_joinSpace g (chunk_words_good src m hm g hg)
    rw [List.map_congr_left this, List.map_id]
  have hflat : (chunkList m (pySplit src)).flatten = pySplit src :=
    chunkList_flatten m hm (pySplit src).length (pySplit src) (le_refl _)
  constructor
  · rw [split_chunks]
    have hne : ∀ g ∈ chunkList m (pySplit src), g ≠ [] := by
      intro g hg
      exact (chunkList_mem m hm (pySplit src).length (pySplit src) g (le_refl _) hg).1
    rw [joinSpace_map_flatten (chunkList m (pySplit src)) hne, hflat]
    exact pySplit_joinSpace (pySplit src) (pySplit_good src)
  · rw [hmap, hflat]

/-- C1 witness at a concrete input. -/
theorem chunker_rejoin_words_witness :
    pySplit (joinSpace (split_source_code ("ab  c\nd").data 2)) = pySplit ("ab  c\nd").data ∧
    ((split_source_code ("ab  c\nd").data 2).map pySplit).flatten = pySplit ("ab  c\nd").data :=
  chunker_rejoin_words ("ab  c\nd").data 2 (by omega)

/-- C3 — every chunk except possibly the final one holds at most `m` words
(in fact every chunk does). -/
theorem chunk_word_bound (src : List Char) (m : Nat) (hm : 1 ≤ m) :
    ∀ ch ∈ (split_source_code src m).dropLast, (pySplit ch).length ≤ m := by
  intro ch hch
  have hch' : ch ∈ split_source_code src m := (List.dropLast_sublist _).subset hch
  rw [split_chunks] at hch'
  obtain ⟨g, hg, rfl⟩ := List.mem_map.mp hch'
  rw [pySplit_joinSpace g (chunk_words_good src m hm g hg)]
  exact (chunkList_mem m hm (pySplit src).length (pySplit src) g (le_refl _) hg).2

/-- C3 witness at a concrete input: the first of the three chunks of
`"a b c"` at maximum word count 1 holds at most one word. -/
theorem chunk_word_bound_witness : (pySplit (("a").data)).length ≤ 1 :=
  chunk_word_bound ("a b c").data 1 (by omega) (("a").data) (by decide)

/-- C8 — the empty input text yields no chunks, and processing a file with
empty content contributes no result keys. -/
theorem empty_input_no_keys (env : Env) (stem : List Char) (prompts : List Prompt) (m : Nat) :
    split_source_code [] m = [] ∧ process_file env (.ok []) stem prompts = [] :=
  ⟨rfl, rfl⟩

/-! ## Lemmas about the retry wrapper -/

lemma gptGo_all_fail (t : Nat → Except (List Char) Yaml) (e : Nat → List Char) :
    ∀ (fuel retries : Nat),
      (∀ i, retries ≤ i → i ≤ RETRY_LIMIT → t i = .error (e i)) →
      retries + fuel = RETRY_LIMIT + 1 → retries ≤ RETRY_LIMIT →
      gptGo t fuel retries = .error (e RETRY_LIMIT) ∧ gptCountGo t fuel retries = fuel := by
  intro fuel
  induction fuel with
  | zero =>
    intro retries _ hsum hr
    exfalso
    omega
  | succ fuel ih =>
    intro retries hfail hsum hr
    have ht : t retries = .error (e retries) := hfail retries (le_refl _) hr
    have hunfold : gptGo t (fuel + 1) retries
        = if retries < RETRY_LIMIT then gptGo t fuel (retries + 1) else .error (e retries) := by
      show (match t retries with
            | .ok r => Except.ok r
            | .error e2 =>
              if retries < RETRY_LIMIT then gptGo t fuel (retries + 1) else Except.error e2) = _
      rw [ht]
    have hcunfold : gptCountGo t (fuel + 1) retries
        = if retries < RETRY_LIMIT then gptCountGo t fuel (retries + 1) + 1 else 1 := by
      show (match t retries with
            | .ok _ => 1
            | .error _ =>
              if retries < RETRY_LIMIT then gptCountGo t fuel (retries + 1) + 1 else 1) = _
      rw [ht]
    by_cases hlt : retries < RETRY_LIMIT
    · obtain ⟨hres, hcount⟩ := ih (retries + 1)
        (fun i h1 h2 => hfail i (by omega) h2) (by omega) (by omega)
      rw [hunfold, if_pos hlt, hcunfold, if_pos hlt, hres, hcount]
      exact ⟨rfl, rfl⟩
    · have hretries : retries = RETRY_LIMIT := by omega
      have hfuel : fuel = 0 := by
        rw [hretries] at hsum
        omega
      rw [hunfold, if_neg hlt, hcunfold, if_neg hlt, hretries, hfuel]
      exact ⟨rfl, rfl⟩

lemma gptGo_succeeds (t : Nat → Except (List Char) Yaml) (k : Nat) (r : Yaml) :
    ∀ (fuel retries : Nat), retries ≤ k → k ≤ RETRY_LIMIT →
      retries + fuel = RETRY_LIMIT + 1 →
      (∀ i, retries ≤ i → i < k → ∃ msg, t i = .error msg) → t k = .ok r →
      gptGo t fuel retries = .ok r ∧ gptCountGo t fuel retries = k - retries + 1 := by
  intro fuel
  induction fuel with
  | zero =>
    intro retries hrk hk hsum _ _
    exfalso
    omega
  | succ fuel ih =>
    intro retries hrk hk hsum hfail hok
    by_cases heq : retries = k
    · subst heq
      have hunfold : gptGo t (fuel + 1) retries = Except.ok r := by
        show (match t retries with
              | .ok r2 => Except.ok r2
              | .error e2 =>
                if retries < RETRY_LIMIT then gptGo t fuel (retries + 1) else Except.error e2)
            = _
        rw [hok]
      have hcunfold : gptCountGo t (fuel + 1) retries = 1 := by
        show (match t retries with
              | .ok _ => 1
              | .error _ =>
                if retries < RETRY_LIMIT then gptCountGo t fuel (retries + 1) + 1 else 1) = _
        rw [hok]
      rw [hunfold, hcunfold]
      exact ⟨rfl, by omega⟩
    · have hlt : retries < k := by omega
      obtain ⟨msg, hmsg⟩ := hfail retries (le_refl _) hlt
      have hltL : retries < RETRY_LIMIT := by omega
      obtain ⟨hres, hcount⟩ := ih (retries + 1) (by omega) hk (by omega)
        (fun i h1 h2 => hfail i (by omega) h2) hok
      have hunfold : gptGo t (fuel + 1) retries = gptGo t fuel (retries + 1) := by
        show (match t retries with
              | .ok r2 => Except.ok r2
              | .error e2 =>
                if retries < RETRY_LIMIT then gptGo t fuel (retries + 1) else Except.error e2)
            = _
        rw [hmsg]
        exact if_pos hltL
      have hcunfold : gptCountGo t (fuel + 1) retries = gptCountGo t fuel (retries + 1) + 1 := by
        show (match t retries with
              | .ok _ => 1
              | .error _ =>
                if retries < RETRY_LIMIT then gptCountGo t fuel (retries + 1) + 1 else 1) = _
        rw [hmsg]
        exact if_pos hltL
      rw [hunfold, hcunfold, hres, hcount]
      exact ⟨rfl, by omega⟩

/-- C2 — when every attempt fails, `gpt_api_call` performs the first attempt
plus exactly `RETRY_LIMIT` retries and re-raises the final failure; when
attempt `k + 1 ≤ RETRY_LIMIT + 1` is the first to succeed, it returns that
attempt's parsed response having performed exactly `k + 1` attempts. -/
theorem gpt_api_call_retry_policy (t : Nat → Except (List Char) Yaml) :
    (∀ e : Nat → List Char, (∀ i, i ≤ RETRY_LIMIT → t i = .error (e i)) →
      gpt_api_call t 0 = .error (e RETRY_LIMIT) ∧ gpt_attempts t 0 = RETRY_LIMIT + 1) ∧
    (∀ (k : Nat) (r : Yaml), k ≤ RETRY_LIMIT →
      (∀ i, i < k → ∃ msg, t i = .error msg) → t k = .ok r →
      gpt_api_call t 0 = .ok r ∧ gpt_attempts t 0 = k + 1) := by
  constructor
  · intro e he
    have h := gptGo_all_fail t e (RETRY_LIMIT + 1) 0
      (fun i _ h2 => he i h2) (by omega) (by omega)
    exact h
  · intro k r hk hfail hok
    have h := gptGo_succeeds t k r (RETRY_LIMIT + 1) 0 (by omega) hk (by omega)
      (fun i _ h2 => hfail i h2) hok
    simpa using h

/-- C2 witness: an always-failing transport is attempted `RETRY_LIMIT + 1`
times and re-raises; a transport failing only on the first attempt returns
attempt 2's response after exactly 2 attempts. -/
theorem gpt_api_call_retry_policy_witness :
    (gpt_api_call (fun _ => .error ("boom").data) 0 = .error ("boom").data ∧
      gpt_attempts (fun _ => .error ("boom").data) 0 = RETRY_LIMIT + 1) ∧
    (gpt_api_call (fun i => if i = 0 then .error ("boom").data else .ok Yaml.nullV) 0
        = .ok Yaml.nullV ∧
      gpt_attempts (fun i => if i = 0 then .error ("boom").data else .ok Yaml.nullV) 0
        = 1 + 1) := by
  constructor
  · exact (gpt_api_call_retry_policy (fun _ => .error ("boom").data)).1
      (fun _ => ("boom").data) (fun i _ => rfl)
  · refine (gpt_api_call_retry_policy
      (fun i => if i = 0 then .error ("boom").data else .ok Yaml.nullV)).2 1 Yaml.nullV
      (by decide) ?_ rfl
    intro i hi
    have : i = 0 := by omega
    subst this
    exact ⟨("boom").data, rfl⟩

/-! ## Walker lemmas -/

lemma inspect_go_files (env : Env) (prompts : List Prompt) :
    ∀ (fs : List FileDesc) (res : Dict),
      inspect_go env prompts (fs.map Source.file) res
      = fs.foldl (fun r f => insertAll r (process_file env f.readResult f.stem prompts)) res := by
  intro fs
  induction fs with
  | nil => intro res; rfl
  | cons f fs ih =>
    intro res
    show inspect_go env prompts (fs.map Source.file)
        (insertAll res (process_file env f.readResult f.stem prompts)) = _
    rw [ih]
    rfl

/-- C7 — a failing file read makes `process_file` return the (empty)
accumulated mapping; that source contributes no keys and the walker
continues with the remaining sources unchanged. -/
theorem read_failure_no_keys (env : Env) (e stem : List Char) (prompts : List Prompt)
    (f : FileDesc) (rest : List Source) (hf : f.readResult = .error e) :
    process_file env (.error e) stem prompts = [] ∧
    inspect_source_code env (.file f :: rest) prompts = inspect_source_code env rest prompts := by
  refine ⟨rfl, ?_⟩
  show inspect_go env prompts (.file f :: rest) [] = inspect_go env prompts rest []
  rw [show inspect_go env prompts (.file f :: rest) []
      = inspect_go env prompts rest
          (insertAll [] (process_file env f.readResult f.stem prompts)) from rfl]
  rw [hf]
  rfl

/-- C7 witness at a concrete failing file. -/
theorem read_failure_no_keys_witness :
    process_file ⟨fun _ _ _ => .ok Yaml.nullV, fun _ => .ok Yaml.nullV⟩
        (.error ("io error").data) ("a").data [] = [] ∧
    inspect_source_code ⟨fun _ _ _ => .ok Yaml.nullV, fun _ => .ok Yaml.nullV⟩
        (.file ⟨("a").data, .error ("io error").data⟩ :: []) []
      = inspect_source_code ⟨fun _ _ _ => .ok Yaml.nullV, fun _ => .ok Yaml.nullV⟩ [] [] :=
  read_failure_no_keys ⟨fun _ _ _ => .ok Yaml.nullV, fun _ => .ok Yaml.nullV⟩
    ("io error").data ("a").data [] ⟨("a").data, .error ("io error").data⟩ [] rfl

/-- C9 — one directory source holding the files `fs` produces the same
combined mapping as listing those files individually as sources. -/
theorem dir_source_equiv (env : Env) (prompts : List Prompt) (fs : List FileDesc) :
    inspect_source_code env [Source.dir fs] prompts
    = inspect_source_code env (fs.map Source.file) prompts := by
  show inspect_go env prompts [Source.dir fs] []
      = inspect_go env prompts (fs.map Source.file) []
  rw [inspect_go_files env prompts fs []]
  rfl

/-! ## Decimal digits: injectivity of the f-string key scheme -/

lemma natDigitsGo_fuel :
    ∀ (fuel fuel2 n : Nat) (acc : List Char), n < fuel → n < fuel2 →
      natDigitsGo fuel n acc = natDigitsGo fuel2 n acc := by
  intro fuel
  induction fuel with
  | zero => intro fuel2 n acc hn _; omega
  | succ f ih =>
    intro fuel2 n acc hn hn2
    cases fuel2 with
    | zero => omega
    | succ g =>
      show (if n < 10 then digitChar n :: acc
            else natDigitsGo f (n / 10) (digitChar (n % 10) :: acc))
          = (if n < 10 then digitChar n :: acc
            else natDigitsGo g (n / 10) (digitChar (n % 10) :: acc))
      by_cases h10 : n < 10
      · rw [if_pos h10, if_pos h10]
      · rw [if_neg h10, if_neg h10]
        exact ih g (n / 10) _ (by omega) (by omega)

lemma natDigitsGo_acc :
    ∀ (fuel n : Nat) (acc : List Char), n < fuel →
      natDigitsGo fuel n acc = natDigitsGo fuel n [] ++ acc := by
  intro fuel
  induction fuel with
  | zero => intro n acc hn; omega
  | succ f ih =>
    intro n acc hn
    by_cases h10 : n < 10
    · show (if n < 10 then digitChar n :: acc
            else natDigitsGo f (n / 10) (digitChar (n % 10) :: acc))
          = (if n < 10 then digitChar n :: ([] : List Char)
            else natDigitsGo f (n / 10) (digitChar (n % 10) :: [])) ++ acc
      rw [if_pos h10, if_pos h10]
      rfl
    · show (if n < 10 then digitChar n :: acc
            else natDigitsGo f (n / 10) (digitChar (n % 10) :: acc))
          = (if n < 10 then digitChar n :: ([] : List Char)
            else natDigitsGo f (n / 10) (digitChar (n % 10) :: [])) ++ acc
      rw [if_neg h10, if_neg h10]
      rw [ih (n / 10) (digitChar (n % 10) :: acc) (by omega)]
      rw [ih (n / 10) (digitChar (n % 10) :: []) (by omega)]
      simp

lemma natDigits_small (n : Nat) (h : n < 10) : natDigits n = [digitChar n] := by
  show (if n < 10 then digitChar n :: ([] : List Char)
        else natDigitsGo n (n / 10) (digitChar (n % 10) :: [])) = _
  rw [if_pos h]

lemma natDigits_large (n : Nat) (h : 10 ≤ n) :
    natDigits n = natDigits (n / 10) ++ [digitChar (n % 10)] := by
  show (if n < 10 then digitChar n :: ([] : List Char)
        else natDigitsGo n (n / 10) (digitChar (n % 10) :: [])) = _
  rw [if_neg (by omega)]
  rw [natDigitsGo_acc n (n / 10) _ (by omega)]
  rw [natDigitsGo_fuel n (n / 10 + 1) (n / 10) [] (by omega) (by omega)]
  rfl

lemma digitChar_toNat (n : Nat) (h : n < 10) : (digitChar n).toNat = 48 + n := by
  interval_cases n <;> rfl

lemma natDigits_isDigit (n : Nat) : ∀ c ∈ natDigits n, isDigitCh c = true := by
  induction n using Nat.strong_induction_on with
  | _ n ih =>
    by_cases h10 : n < 10
    · rw [natDigits_small n h10]
      intro c hc
      rw [List.mem_singleton] at hc
      subst hc
      simp only [isDigitCh, digitChar_toNat n h10, Bool.and_eq_true, decide_eq_true_eq]
      omega
    · rw [natDigits_large n (by omega)]
      intro c hc
      rcases List.mem_append.mp hc with hc' | hc'
      · exact ih (n / 10) (by omega) c hc'
      · rw [List.mem_singleton] at hc'
        subst hc'
        simp only [isDigitCh, digitChar_toNat (n % 10) (by omega), Bool.and_eq_true,
          decide_eq_true_eq]
        omega

lemma digitsVal_natDigits (n : Nat) : digitsVal (natDigits n) = n := by
  induction n using Nat.strong_induction_on with
  | _ n ih =>
    by_cases h10 : n < 10
    · rw [natDigits_small n h10]
      simp [digitsVal, digitChar_toNat n h10]
    · rw [natDigits_large n (by omega)]
      show List.foldl (fun a c => a * 10 + (c.toNat - 48)) 0 (natDigits (n / 10) ++ [digitChar (n % 10)]) = n
      rw [List.foldl_append]
      have hv : List.foldl (fun a c => a * 10 + (c.toNat - 48)) 0 (natDigits (n / 10)) = n / 10 :=
        ih (n / 10) (by omega)
      rw [hv]
      show n / 10 * 10 + ((digitChar (n % 10)).toNat - 48) = n
      rw [digitChar_toNat (n % 10) (by omega)]
      omega

lemma natDigits_inj {a b : Nat} (h : natDigits a = natDigits b) : a = b := by
  rw [← digitsVal_natDigits a, h, digitsVal_natDigits]

lemma digit_block_inj :
    ∀ (a a2 rest rest2 : List Char),
      (∀ c ∈ a, isDigitCh c = true) → (∀ c ∈ a2, isDigitCh c = true) →
      a ++ '_' :: rest = a2 ++ '_' :: rest2 → a = a2 ∧ rest = rest2 := by
  intro a
  induction a with
  | nil =>
    intro a2 rest rest2 _ ha2 h
    cases a2 with
    | nil => simpa using h
    | cons d a3 =>
      exfalso
      have hd : d = '_' := by simpa using (List.cons.inj (by simpa using h)).1.symm
      have := ha2 d (by simp)
      rw [hd] at this
      simp [isDigitCh] at this
  | cons c a1 ih =>
    intro a2 rest rest2 ha ha2 h
    cases a2 with
    | nil =>
      exfalso
      have hc : c = '_' := by simpa using (List.cons.inj (by simpa using h)).1
      have := ha c (by simp)
      rw [hc] at this
      simp [isDigitCh] at this
    | cons d a3 =>
      have h1 : c = d := (List.cons.inj (by simpa using h)).1
      have h2 : a1 ++ '_' :: rest = a3 ++ '_' :: rest2 := (List.cons.inj (by simpa using h)).2
      obtain ⟨ha13, hr⟩ := ih a3 rest rest2 (fun x hx => ha x (by simp [hx]))
        (fun x hx => ha2 x (by simp [hx])) h2
      exact ⟨by rw [h1, ha13], hr⟩

lemma result_key_inj (stem : List Char) {c p c2 p2 : Nat}
    (h : result_key stem c p = result_key stem c2 p2) : c = c2 ∧ p = p2 := by
  unfold result_key at h
  simp only [List.append_assoc] at h
  have h1 := List.append_cancel_left h
  have h2 := List.append_cancel_left h1
  have h3 : natDigits c ++ '_' :: (("prompt_").data ++ natDigits p)
      = natDigits c2 ++ '_' :: (("prompt_").data ++ natDigits p2) := by
    simpa using h2
  obtain ⟨hc, hrest⟩ := digit_block_inj (natDigits c) (natDigits c2) _ _
    (natDigits_isDigit c) (natDigits_isDigit c2) h3
  refine ⟨natDigits_inj hc, ?_⟩
  exact natDigits_inj (List.append_cancel_left hrest)

/-! ## Dict lemmas -/

lemma lookupL_append {β : Type} :
    ∀ (a b : List (List Char × β)) (k : List Char),
      lookupL (a ++ b) k
        = match lookupL a k with
          | some v => some v
          | none => lookupL b k := by
  intro a
  induction a with
  | nil => intro b k; rfl
  | cons e a2 ih =>
    intro b k
    obtain ⟨k1, v1⟩ := e
    show (if k1 = k then some v1 else lookupL (a2 ++ b) k) = _
    by_cases h : k1 = k
    · rw [if_pos h]
      show _ = (match (if k1 = k then some v1 else lookupL a2 k) with
                | some v => some v
                | none => lookupL b k)
      rw [if_pos h]
    · rw [if_neg h, ih b k]
      show _ = (match (if k1 = k then some v1 else lookupL a2 k) with
                | some v => some v
                | none => lookupL b k)
      rw [if_neg h]

lemma dictInsert_fresh (m : Dict) (k : List Char) (v : Yaml)
    (h : ∀ e ∈ m, e.1 ≠ k) : dictInsert m k v = m ++ [(k, v)] := by
  unfold dictInsert
  have hany : m.any (fun e => e.1 = k) = false := by
    rw [List.any_eq_false]
    intro e he
    simp only [decide_eq_true_eq]
    exact h e he
  rw [hany]
  rfl

lemma insertAll_append (m a b : Dict) :
    insertAll m (a ++ b) = insertAll (insertAll m a) b :=
  List.foldl_append _ _ _ _

lemma insertAll_nodup_fresh :
    ∀ (es m : Dict), (∀ e ∈ es, ∀ e2 ∈ m, e2.1 ≠ e.1) → (es.map Prod.fst).Nodup →
      insertAll m es = m ++ es := by
  intro es
  induction es with
  | nil => intro m _ _; simp [insertAll]
  | cons e rest ih =>
    intro m hfresh hnodup
    obtain ⟨k, v⟩ := e
    have hcons := List.nodup_cons.mp (show (k :: rest.map Prod.fst).Nodup from hnodup)
    show insertAll (dictInsert m k v) rest = m ++ (k, v) :: rest
    rw [dictInsert_fresh m k v (fun e2 he2 => hfresh (k, v) (by simp) e2 he2)]
    rw [ih (m ++ [(k, v)]) ?_ ?_]
    · simp
    · intro e3 he3 e2 he2
      rcases List.mem_append.mp he2 with h2 | h2
      · exact hfresh e3 (List.mem_cons_of_mem _ he3) e2 h2
      · rw [List.mem_singleton] at h2
        subst h2
        have hk : k ∉ rest.map Prod.fst := hcons.1
        show k ≠ e3.1
        intro hkk
        apply hk
        rw [hkk]
        exact List.mem_map.mpr ⟨e3, he3, rfl⟩
    · exact hcons.2

/-! ## The processing loops produce the canonical entry lists -/

lemma process_prompts_eq (env : Env) (stem chunk : List Char) (c : Nat) :
    ∀ (prs : List Prompt) (p : Nat) (res : Dict),
      process_prompts env stem chunk c prs p res
        = insertAll res (promptEntries env stem chunk c prs p) := by
  intro prs
  induction prs with
  | nil => intro p res; rfl
  | cons pr rest ih =>
    intro p res
    show process_prompts env stem chunk c rest (p + 1)
        (dictInsert res (result_key stem c p) (process_pair env pr chunk)) = _
    rw [ih]
    rfl

lemma process_chunks_eq (env : Env) (stem : List Char) (prompts : List Prompt) :
    ∀ (chunks : List (List Char)) (c : Nat) (res : Dict),
      process_chunks env stem prompts chunks c res
        = insertAll res (chunkEntries env stem prompts chunks c) := by
  intro chunks
  induction chunks with
  | nil => intro c res; rfl
  | cons ch rest ih =>
    intro c res
    show process_chunks env stem prompts rest (c + 1)
        (process_prompts env stem ch c prompts 1 res) = _
    rw [ih, process_prompts_eq]
    show _ = insertAll res
        (promptEntries env stem ch c prompts 1 ++ chunkEntries env stem prompts rest (c + 1))
    rw [insertAll_append]

/-! ## Keys of the canonical entry lists -/

lemma promptEntries_length (env : Env) (stem chunk : List Char) (c : Nat) :
    ∀ (prs : List Prompt) (p : Nat),
      (promptEntries env stem chunk c prs p).length = prs.length := by
  intro prs
  induction prs with
  | nil => intro p; rfl
  | cons pr rest ih => intro p; simpa [promptEntries] using ih (p + 1)

lemma chunkEntries_length (env : Env) (stem : List Char) (prompts : List Prompt) :
    ∀ (chunks : List (List Char)) (c : Nat),
      (chunkEntries env stem prompts chunks c).length = chunks.length * prompts.length := by
  intro chunks
  induction chunks with
  | nil => intro c; simp [chunkEntries]
  | cons ch rest ih =>
    intro c
    show (promptEntries env stem ch c prompts 1 ++ chunkEntries env stem prompts rest (c + 1)).length = _
    rw [List.length_append, promptEntries_length, ih]
    simp [Nat.succ_mul]
    omega

lemma promptEntries_keys (env : Env) (stem chunk : List Char) (c : Nat) :
    ∀ (prs : List Prompt) (p : Nat) (k : List Char),
      k ∈ (promptEntries env stem chunk c prs p).map Prod.fst ↔
        ∃ i, i < prs.length ∧ k = result_key stem c (p + i) := by
  intro prs
  induction prs with
  | nil => intro p k; simp [promptEntries]
  | cons pr rest ih =>
    intro p k
    show k ∈ (result_key stem c p ::
        (promptEntries env stem chunk c rest (p + 1)).map Prod.fst) ↔ _
    rw [List.mem_cons, ih (p + 1) k]
    constructor
    · rintro (rfl | ⟨i, hi, rfl⟩)
      · exact ⟨0, by simp⟩
      · refine ⟨i + 1, by simp; omega, ?_⟩
        have : p + 1 + i = p + (i + 1) := by omega
        rw [this]
    · rintro ⟨i, hi, rfl⟩
      cases i with
      | zero => left; rfl
      | succ j =>
        right
        refine ⟨j, by simp at hi; omega, ?_⟩
        have : p + (j + 1) = p + 1 + j := by omega
        rw [this]

lemma chunkEntries_keys (env : Env) (stem : List Char) (prompts : List Prompt) :
    ∀ (chunks : List (List Char)) (c0 : Nat) (k : List Char),
      k ∈ (chunkEntries env stem prompts chunks c0).map Prod.fst ↔
        ∃ j, j < chunks.length ∧ ∃ i, i < prompts.length ∧
          k = result_key stem (c0 + j) (1 + i) := by
  intro chunks
  induction chunks with
  | nil => intro c0 k; simp [chunkEntries]
  | cons ch rest ih =>
    intro c0 k
    show k ∈ (promptEntries env stem ch c0 prompts 1
        ++ chunkEntries env stem prompts rest (c0 + 1)).map Prod.fst ↔ _
    rw [List.map_append, List.mem_append, promptEntries_keys, ih (c0 + 1) k]
    constructor
    · rintro (⟨i, hi, rfl⟩ | ⟨j, hj, i, hi, rfl⟩)
      · exact ⟨0, by simp, i, hi, by rw [Nat.add_zero]⟩
      · refine ⟨j + 1, by simp; omega, i, hi, ?_⟩
        have : c0 + 1 + j = c0 + (j + 1) := by omega
        rw [this]
    · rintro ⟨j, hj, i, hi, rfl⟩
      cases j with
      | zero => left; exact ⟨i, hi, by rw [Nat.add_zero]⟩
      | succ j2 =>
        right
        refine ⟨j2, by simp at hj; omega, i, hi, ?_⟩
        have : c0 + (j2 + 1) = c0 + 1 + j2 := by omega
        rw [this]

lemma promptEntries_nodup (env : Env) (stem chunk : List Char) (c : Nat) :
    ∀ (prs : List Prompt) (p : Nat),
      ((promptEntries env stem chunk c prs p).map Prod.fst).Nodup := by
  intro prs
  induction prs with
  | nil => intro p; simp [promptEntries]
  | cons pr rest ih =>
    intro p
    show (result_key stem c p ::
        (promptEntries env stem chunk c rest (p + 1)).map Prod.fst).Nodup
    rw [List.nodup_cons]
    refine ⟨?_, ih (p + 1)⟩
    intro hmem
    obtain ⟨i, _, heq⟩ := (promptEntries_keys env stem chunk c rest (p + 1) _).mp hmem
    have := (result_key_inj stem heq).2
    omega

lemma chunkEntries_nodup (env : Env) (stem : List Char) (prompts : List Prompt) :
    ∀ (chunks : List (List Char)) (c0 : Nat),
      ((chunkEntries env stem prompts chunks c0).map Prod.fst).Nodup := by
  intro chunks
  induction chunks with
  | nil => intro c0; simp [chunkEntries]
  | cons ch rest ih =>
    intro c0
    show ((promptEntries env stem ch c0 prompts 1
        ++ chunkEntries env stem prompts rest (c0 + 1)).map Prod.fst).Nodup
    rw [List.map_append, List.nodup_append]
    refine ⟨promptEntries_nodup env stem ch c0 prompts 1, ih (c0 + 1), ?_⟩
    rw [List.disjoint_left]
    intro k hk1 hk2
    obtain ⟨i, _, rfl⟩ := (promptEntries_keys env stem ch c0 prompts 1 k).mp hk1
    obtain ⟨j, _, i2, _, heq⟩ := (chunkEntries_keys env stem prompts rest (c0 + 1) _).mp hk2
    have := (result_key_inj stem heq).1
    omega

/-! ## Locating one pair's record -/

lemma promptEntries_find_at (env : Env) (stem chunk : List Char) (c : Nat) :
    ∀ (prs : List Prompt) (p0 pi : Nat) (hpi : pi < prs.length),
      lookupL (promptEntries env stem chunk c prs p0) (result_key stem c (p0 + pi))
        = some (process_pair env (prs.get ⟨pi, hpi⟩) chunk) := by
  intro prs
  induction prs with
  | nil => intro p0 pi hpi; simp at hpi
  | cons pr rest ih =>
    intro p0 pi hpi
    cases pi with
    | zero =>
      show (if result_key stem c p0 = result_key stem c (p0 + 0) then
          some (process_pair env pr chunk)
        else lookupL (promptEntries env stem chunk c rest (p0 + 1))
          (result_key stem c (p0 + 0))) = _
      rw [if_pos (by rw [Nat.add_zero])]
      rfl
    | succ j =>
      have hne : result_key stem c p0 ≠ result_key stem c (p0 + (j + 1)) := by
        intro hcon
        have := (result_key_inj stem hcon).2
        omega
      show (if result_key stem c p0 = result_key stem c (p0 + (j + 1)) then
          some (process_pair env pr chunk)
        else lookupL (promptEntries env stem chunk c rest (p0 + 1))
          (result_key stem c (p0 + (j + 1)))) = _
      rw [if_neg hne]
      have harith : p0 + (j + 1) = p0 + 1 + j := by omega
      rw [harith, ih (p0 + 1) j (by simpa using hpi)]
      rfl

lemma promptEntries_find_none (env : Env) (stem chunk : List Char) (c : Nat) :
    ∀ (prs : List Prompt) (p0 : Nat) (c2 p2 : Nat), c ≠ c2 →
      lookupL (promptEntries env stem chunk c prs p0) (result_key stem c2 p2) = none := by
  intro prs
  induction prs with
  | nil => intro p0 c2 p2 _; rfl
  | cons pr rest ih =>
    intro p0 c2 p2 hne
    show (if result_key stem c p0 = result_key stem c2 p2 then
        some (process_pair env pr chunk)
      else lookupL (promptEntries env stem chunk c rest (p0 + 1)) (result_key stem c2 p2)) = _
    rw [if_neg (fun hcon => hne (result_key_inj stem hcon).1)]
    exact ih (p0 + 1) c2 p2 hne

lemma chunkEntries_find_at (env : Env) (stem : List Char) (prompts : List Prompt) :
    ∀ (chunks : List (List Char)) (c0 ci pi : Nat)
      (hci : ci < chunks.length) (hpi : pi < prompts.length),
      lookupL (chunkEntries env stem prompts chunks c0) (result_key stem (c0 + ci) (1 + pi))
        = some (process_pair env (prompts.get ⟨pi, hpi⟩) (chunks.get ⟨ci, hci⟩)) := by
  intro chunks
  induction chunks with
  | nil => intro c0 ci pi hci hpi; simp at hci
  | cons ch rest ih =>
    intro c0 ci pi hci hpi
    show lookupL (promptEntries env stem ch c0 prompts 1
        ++ chunkEntries env stem prompts rest (c0 + 1)) (result_key stem (c0 + ci) (1 + pi)) = _
    rw [lookupL_append]
    cases ci with
    | zero =>
      rw [show c0 + 0 = c0 from Nat.add_zero c0]
      rw [promptEntries_find_at env stem ch c0 prompts 1 pi hpi]
      rfl
    | succ j =>
      rw [promptEntries_find_none env stem ch c0 prompts 1 (c0 + (j + 1)) (1 + pi)
        (by omega)]
      have harith : c0 + (j + 1) = c0 + 1 + j := by omega
      rw [harith, ih (c0 + 1) j pi (by simpa using hci) hpi]
      rfl

lemma process_file_entries (env : Env) (src stem : List Char) (prompts : List Prompt) :
    process_file env (.ok src) stem prompts
      = chunkEntries env stem prompts (split_source_code src MAX_CHUNK_SIZE) 1 := by
  show process_chunks env stem prompts (split_source_code src MAX_CHUNK_SIZE) 1 [] = _
  rw [process_chunks_eq]
  rw [insertAll_nodup_fresh _ [] (fun e _ e2 he2 => absurd he2 (List.not_mem_nil e2))
    (chunkEntries_nodup env stem prompts _ 1)]
  rfl

/-! ## The per-file claims -/

/-- C4 — when the read succeeds, `process_file` returns a mapping with
exactly `C * P` pairwise-distinct keys (`C` chunks, `P` prompts), and the
keys are exactly the strings `{stem}_chunk_{c}_prompt_{p}` for
`1 ≤ c ≤ C`, `1 ≤ p ≤ P` (so three chunks and two prompts give 6 keys). -/
theorem process_file_key_structure (env : Env) (src stem : List Char) (prompts : List Prompt) :
    (process_file env (.ok src) stem prompts).length
        = (split_source_code src MAX_CHUNK_SIZE).length * prompts.length ∧
    ((process_file env (.ok src) stem prompts).map Prod.fst).Nodup ∧
    ∀ k, k ∈ (process_file env (.ok src) stem prompts).map Prod.fst ↔
      ∃ c, 1 ≤ c ∧ c ≤ (split_source_code src MAX_CHUNK_SIZE).length ∧
        ∃ p, 1 ≤ p ∧ p ≤ prompts.length ∧ k = result_key stem c p := by
  rw [process_file_entries]
  refine ⟨chunkEntries_length env stem prompts _ 1,
    chunkEntries_nodup env stem prompts _ 1, ?_⟩
  intro k
  rw [chunkEntries_keys env stem prompts _ 1 k]
  constructor
  · rintro ⟨j, hj, i, hi, rfl⟩
    exact ⟨1 + j, by omega, by omega, 1 + i, by omega, by omega, rfl⟩
  · rintro ⟨c, hc1, hc2, p, hp1, hp2, rfl⟩
    refine ⟨c - 1, by omega, p - 1, by omega, ?_⟩
    have h1 : 1 + (c - 1) = c := by omega
    have h2 : 1 + (p - 1) = p := by omega
    rw [h1, h2]

/-- C5 — when the API call for a pair succeeds and the response content is
extracted but fails YAML parsing, the record stored under that pair's key is
exactly the error marker carrying the raw unparsed text, and all other pairs
are still processed (the mapping keeps its full `C * P` size). -/
theorem yaml_parse_failure_recorded (env : Env) (src stem : List Char) (prompts : List Prompt)
    (ci pi : Nat) (hci : ci < (split_source_code src MAX_CHUNK_SIZE).length)
    (hpi : pi < prompts.length) (resp : Yaml) (raw emsg : List Char)
    (hapi : gpt_api_call (env.transport (prompts.get ⟨pi, hpi⟩).system
        (user_prompt (prompts.get ⟨pi, hpi⟩)
          ((split_source_code src MAX_CHUNK_SIZE).get ⟨ci, hci⟩))) 0 = .ok resp)
    (hcontent : getContent resp = .ok raw)
    (hparse : env.parse raw = .error emsg) :
    lookupL (process_file env (.ok src) stem prompts) (result_key stem (ci + 1) (pi + 1))
        = some (.dict [(("error").data, .str ("YAML parsing failed").data),
                       (("raw_output").data, .str raw)]) ∧
    (process_file env (.ok src) stem prompts).length
        = (split_source_code src MAX_CHUNK_SIZE).length * prompts.length := by
  have hpp : process_pair env (prompts.get ⟨pi, hpi⟩)
      ((split_source_code src MAX_CHUNK_SIZE).get ⟨ci, hci⟩)
      = .dict [(("error").data, .str ("YAML parsing failed").data),
               (("raw_output").data, .str raw)] := by
    simp only [process_pair, content_of, hapi, hcontent, hparse]
  rw [process_file_entries]
  refine ⟨?_, chunkEntries_length env stem prompts _ 1⟩
  rw [show ci + 1 = 1 + ci by omega, show pi + 1 = 1 + pi by omega]
  rw [chunkEntries_find_at env stem prompts _ 1 ci pi hci hpi, hpp]

/-- C5 witness at a concrete environment whose parse step fails. -/
theorem yaml_parse_failure_recorded_witness :
    lookupL (process_file envParseFail (.ok ("x").data) ("f").data
        [⟨("s").data, ("u").data⟩]) (result_key ("f").data 1 1)
        = some (.dict [(("error").data, .str ("YAML parsing failed").data),
                       (("raw_output").data, .str ("not: [valid").data)]) ∧
    (process_file envParseFail (.ok ("x").data) ("f").data
        [⟨("s").data, ("u").data⟩]).length
        = (split_source_code ("x").data MAX_CHUNK_SIZE).length
            * ([⟨("s").data, ("u").data⟩] : List Prompt).length :=
  yaml_parse_failure_recorded envParseFail ("x").data ("f").data
    [⟨("s").data, ("u").data⟩] 0 0 (by decide) (by decide)
    (Yaml.dict [(("choices").data,
      .arr [Yaml.dict [(("message").data, Yaml.dict [(("content").data,
        .str ("not: [valid").data)])]])])
    (("not: [valid").data) (("bad yaml").data) rfl rfl rfl

/-- C6 — a failure raised while processing one (chunk, prompt) pair (API
failure after retries, or response-shape failure) is caught and recorded as
an error entry under that pair's key; every other pair of the file is
processed with its own record unaffected, and the mapping keeps its full
`C * P` size. -/
theorem pair_failure_contained (env : Env) (src stem : List Char) (prompts : List Prompt)
    (ci pi : Nat) (hci : ci < (split_source_code src MAX_CHUNK_SIZE).length)
    (hpi : pi < prompts.length) (emsg : List Char)
    (hfail : content_of env (prompts.get ⟨pi, hpi⟩)
        ((split_source_code src MAX_CHUNK_SIZE).get ⟨ci, hci⟩) = .error emsg) :
    lookupL (process_file env (.ok src) stem prompts) (result_key stem (ci + 1) (pi + 1))
        = some (.dict [(("error").data, .str emsg)]) ∧
    (process_file env (.ok src) stem prompts).length
        = (split_source_code src MAX_CHUNK_SIZE).length * prompts.length ∧
    ∀ (cj pj : Nat) (hcj : cj < (split_source_code src MAX_CHUNK_SIZE).length)
      (hpj : pj < prompts.length), (cj, pj) ≠ (ci, pi) →
      lookupL (process_file env (.ok src) stem prompts) (result_key stem (cj + 1) (pj + 1))
        = some (process_pair env (prompts.get ⟨pj, hpj⟩)
            ((split_source_code src MAX_CHUNK_SIZE).get ⟨cj, hcj⟩)) := by
  have hpp : process_pair env (prompts.get ⟨pi, hpi⟩)
      ((split_source_code src MAX_CHUNK_SIZE).get ⟨ci, hci⟩)
      = .dict [(("error").data, .str emsg)] := by
    simp only [process_pair, hfail]
  rw [process_file_entries]
  refine ⟨?_, chunkEntries_length env stem prompts _ 1, ?_⟩
  · rw [show ci + 1 = 1 + ci by omega, show pi + 1 = 1 + pi by omega]
    rw [chunkEntries_find_at env stem prompts _ 1 ci pi hci hpi, hpp]
  · intro cj pj hcj hpj _
    rw [show cj + 1 = 1 + cj by omega, show pj + 1 = 1 + pj by omega]
    exact chunkEntries_find_at env stem prompts _ 1 cj pj hcj hpj

/-- C6 witness: one chunk, two prompts, the API failing on every attempt;
both pairs get their own record and the mapping has full size. -/
theorem pair_failure_contained_witness :
    lookupL (process_file envApiFail (.ok ("x y").data) ("f").data
        [⟨("s").data, ("u").data⟩, ⟨("s2").data, ("u2").data⟩]) (result_key ("f").data 1 1)
        = some (.dict [(("error").data, .str ("boom").data)]) ∧
    (process_file envApiFail (.ok ("x y").data) ("f").data
        [⟨("s").data, ("u").data⟩, ⟨("s2").data, ("u2").data⟩]).length
        = (split_source_code ("x y").data MAX_CHUNK_SIZE).length
            * ([⟨("s").data, ("u").data⟩, ⟨("s2").data, ("u2").data⟩] : List Prompt).length ∧
    lookupL (process_file envApiFail (.ok ("x y").data) ("f").data
        [⟨("s").data, ("u").data⟩, ⟨("s2").data, ("u2").data⟩]) (result_key ("f").data 1 2)
        = some (process_pair envApiFail ⟨("s2").data, ("u2").data⟩ (("x y").data)) := by
  obtain ⟨h1, h2, h3⟩ := pair_failure_contained envApiFail ("x y").data ("f").data
    [⟨("s").data, ("u").data⟩, ⟨("s2").data, ("u2").data⟩] 0 0
    (by decide) (by decide) (("boom").data) rfl
  exact ⟨h1, h2, h3 0 1 (by decide) (by decide) (by decide)⟩

/-- C10 — the record for an API-or-shape failure is exactly
`{error: message}` with no `raw_output` key, while the record for a
parse-only failure always carries `raw_output` with the original text. -/
theorem error_record_shape (env : Env) (pr : Prompt) (chunk : List Char) :
    (∀ emsg, content_of env pr chunk = .error emsg →
      process_pair env pr chunk = .dict [(("error").data, .str emsg)] ∧
      lookupL [(("error").data, Yaml.str emsg)] ("raw_output").data = none) ∧
    (∀ raw pmsg, content_of env pr chunk = .ok raw → env.parse raw = .error pmsg →
      process_pair env pr chunk
          = .dict [(("error").data, .str ("YAML parsing failed").data),
                   (("raw_output").data, .str raw)] ∧
      lookupL [(("error").data, Yaml.str ("YAML parsing failed").data),
               (("raw_output").data, Yaml.str raw)] ("raw_output").data
          = some (.str raw)) := by
  have hne : (("error").data : List Char) ≠ ("raw_output").data := by decide
  constructor
  · intro emsg hfail
    refine ⟨by simp only [process_pair, hfail], ?_⟩
    show (if ("error").data = ("raw_output").data then some (Yaml.str emsg)
          else lookupL [] (("raw_output").data)) = none
    rw [if_neg hne]
    rfl
  · intro raw pmsg hok hparse
    refine ⟨by simp only [process_pair, hok, hparse], ?_⟩
    show (if ("error").data = ("raw_output").data
            then some (Yaml.str (("YAML parsing failed").data))
          else if ("raw_output").data = ("raw_output").data then some (Yaml.str raw)
          else lookupL [] (("raw_output").data)) = some (Yaml.str raw)
    rw [if_neg hne, if_pos rfl]

/-- C10 witness at the two concrete fixture environments. -/
theorem error_record_shape_witness :
    (process_pair envApiFail ⟨("s").data, ("u").data⟩ ("code").data
        = .dict [(("error").data, .str ("boom").data)] ∧
      lookupL [(("error").data, Yaml.str ("boom").data)] ("raw_output").data = none) ∧
    (process_pair envParseFail ⟨("s").data, ("u").data⟩ ("code").data
        = .dict [(("error").data, .str ("YAML parsing failed").data),
                 (("raw_output").data, .str ("not: [valid").data)] ∧
      lookupL [(("error").data, Yaml.str ("YAML parsing failed").data),
               (("raw_output").data, Yaml.str ("not: [valid").data)] ("raw_output").data
          = some (.str ("not: [valid").data)) :=
  ⟨(error_record_shape envApiFail ⟨("s").data, ("u").data⟩ ("code").data).1
      (("boom").data) rfl,
   (error_record_shape envParseFail ⟨("s").data, ("u").data⟩ ("code").data).2
      (("not: [valid").data) (("bad yaml").data) rfl rfl⟩

end BugInspector
